import Mathlib

/-!
Verification development for the server-side verification-and-accumulation
core of a Prio-style private aggregation protocol (`src/server.rs`).

The repository ships only `server.rs`; the collaborating modules
(`finite_field`, `util`, `polynomial`, `prng`, `encrypt`) are declared
external by the specification.  Wherever a definition below stands in for
one of those missing modules its doc comment starts with
`Modelled from the spec:` and explains the modelling choice.  Everything
else is a direct shallow embedding of `server.rs`: Rust `Vec<Field>`
becomes `List Field`, in-place mutation becomes explicit state passing,
fallible operations return `Option` / `Except`.
-/

namespace Prio

/-- Modelled from the spec: `finite_field` is not under `src/`; the spec only
requires "a fixed finite field" with `+`, `-`, `*`, `==`, conversion from an
unsigned integer and canonical `0` and `1`.  We fix the Prio field modulus
`4293918721`; no claim below depends on the particular modulus. -/
abbrev MODULUS : Nat := 4293918721

/-- Modelled from the spec: the fixed finite field of the protocol. -/
abbrev Field : Type := ZMod MODULUS

/-- Modelled from the spec: `Field::from(x: u32)` — conversion of an unsigned
32-bit integer into the field. -/
def fieldFromU32 (x : Nat) : Field := ((x % 4294967296 : Nat) : Field)

/-- Modelled from the spec: `util::vector_with_length(len)` initializes a
fixed-size vector of field elements; the accumulator it builds is
"initialized to zero at Server creation" (spec data model), so it is the
all-zero vector of the requested length. -/
def vector_with_length (len : Nat) : List Field := List.replicate len 0

/-- Triple `(f_r, g_r, h_r)`: one server's partial evaluation of the three
proof polynomials at the challenge point (`struct VerificationMessage`). -/
structure VerificationMessage where
  f_r : Field
  g_r : Field
  h_r : Field
deriving DecidableEq

/-- `is_valid_share(v1, v2)` from `server.rs`: reconstruct `f_r`, `g_r`,
`h_r` by adding the two servers' partial evaluations, then test the
polynomial identity `f_r * g_r == h_r`. -/
def is_valid_share (v1 v2 : VerificationMessage) : Bool :=
  let f_r := v1.f_r + v2.f_r
  let g_r := v1.g_r + v2.g_r
  let h_r := v1.h_r + v2.h_r
  decide (f_r * g_r = h_r)

/-- Modelled from the spec: `PolyAuxMemory` (module `polynomial`, not under
`src/`) precomputes the order-n and order-2n root tables and their inverses
and exposes the order-2n root set read-only; the table contents are the
polynomial library's business, so they are carried as opaque list data
fixed at construction time. -/
structure PolyAuxMemory where
  roots_n_inverted : List Field
  roots_2n_inverted : List Field
  roots_2n : List Field
deriving DecidableEq

/-- Per-server mutable scratch state (`struct ValidationMemory`): point
arrays for the three proof polynomials plus the polynomial scratch. -/
structure ValidationMemory where
  points_f : List Field
  points_g : List Field
  points_h : List Field
  poly_mem : PolyAuxMemory
deriving DecidableEq

/-- `ValidationMemory::new(dimension)`: with `n = (dimension+1).next_power_of_two()`,
allocate zeroed point arrays of sizes `n`, `n`, `2n`.  The `PolyAuxMemory`
root tables are produced by the external polynomial library, so they enter
as a parameter. -/
def ValidationMemory.new (dimension : Nat) (pm : PolyAuxMemory) : ValidationMemory :=
  let n := (dimension + 1).nextPowerOfTwo
  { points_f := vector_with_length n
    points_g := vector_with_length n
    points_h := vector_with_length (2 * n)
    poly_mem := pm }

/-- Modelled from the spec: opaque decryption credential owned by the
server for its lifetime; the decode step itself is external, so the key
carries no data in this embedding. -/
structure PrivateKey where
deriving DecidableEq

/-- Modelled from the spec: decryption failure surfaced by the external
`encrypt` module (malformed ciphertext, authentication failure, wrong key). -/
inductive EncryptError where
  | decryptionFailed
deriving DecidableEq

/-- `struct Server`: dimension, role flag, running accumulator, reusable
scratch memory and the decryption key. -/
structure Server where
  dimension : Nat
  is_first_server : Bool
  accumulator : List Field
  validation_mem : ValidationMemory
  private_key : PrivateKey
deriving DecidableEq

/-- `Server::new(dimension, is_first_server, private_key)`: zero accumulator
of length `dimension`, fresh `ValidationMemory` (root tables `pm` supplied
by the external polynomial library). -/
def Server.new (dimension : Nat) (is_first_server : Bool)
    (private_key : PrivateKey) (pm : PolyAuxMemory) : Server :=
  { dimension := dimension
    is_first_server := is_first_server
    accumulator := vector_with_length dimension
    validation_mem := ValidationMemory.new dimension pm
    private_key := private_key }

/-- In-place elementwise addition
`for (a, s) in accumulator.iter_mut().zip(share.iter()) { *a += *s }`:
pairs up to the shorter list, leaves the remaining accumulator entries
untouched, and never changes the accumulator's length. -/
def addInto : List Field → List Field → List Field
  | [], _ => []
  | a, [] => a
  | a :: as', s :: ss => (a + s) :: addInto as' ss

/-- `Server::aggregate(share, v1, v2)` with the external decode step
(`deserialize_share`, spec 4.2) abstracted by its result `share_field`:
on decode failure the error propagates and the server is unchanged;
otherwise run the validity oracle and add the decoded share into the
accumulator exactly when it passes. -/
def Server.aggregate (srv : Server) (share_field : Except EncryptError (List Field))
    (v1 v2 : VerificationMessage) : Except EncryptError Bool × Server :=
  match share_field with
  | Except.error e => (Except.error e, srv)
  | Except.ok sf =>
    let is_valid := is_valid_share v1 v2
    if is_valid then
      (Except.ok is_valid, { srv with accumulator := addInto srv.accumulator sf })
    else
      (Except.ok is_valid, srv)

/-- `Server::total_shares()`: read-only view of the accumulator. -/
def Server.total_shares (srv : Server) : List Field :=
  srv.accumulator

/-- `Server::choose_eval_at()`: repeatedly draw a random `u32`, convert to a
field element, and return the first draw absent from the order-2n root set.
The process-wide random source becomes an explicit stream `draws`; the Rust
`loop` returns only when some draw escapes the root set, which is the
hypothesis `h`, and the value returned is the first such draw. -/
def Server.choose_eval_at (srv : Server) (draws : Nat → Nat)
    (h : ∃ k, srv.validation_mem.poly_mem.roots_2n.contains (fieldFromU32 (draws k)) = false) :
    Field :=
  fieldFromU32 (draws (Nat.find h))

/-- Modelled from the spec: `util::proof_length(dimension)`, the canonical
count of field elements in a fully unpacked share.  The spec's concrete
scenario (dimension 8, a 27-element proof) together with the in-`src/`
consumer fixes it: three anchor scalars, one data value per data dimension,
and one packed h value per odd index of the order-2n domain (`n` of them,
since the `points_h` loop in `server.rs` writes the `n` odd slots
`1, 3, …, 2n−1` from consecutive packed entries), so
`dimension + 3 + n` with `n = (dimension+1).next_power_of_two()`
(for dimension 8: `8 + 3 + 16 = 27`). -/
def proof_length (dimension : Nat) : Nat :=
  dimension + 3 + (dimension + 1).nextPowerOfTwo

/-- Modelled from the spec: the unpacked proof — three anchor scalars
`f0, g0, h0`, the data sequence, and the packed odd-index h values. -/
structure UnpackedProof where
  data : List Field
  f0 : Field
  g0 : Field
  h0 : Field
  points_h_packed : List Field
deriving DecidableEq

/-- Modelled from the spec: `util::unpack_proof(proof, dimension)` — fails
(returns nothing) if the share's length disagrees with
`proof_length(dimension)`; otherwise splits it into the data block, the
three anchor scalars, and the packed h values. -/
def unpack_proof (proof : List Field) (dimension : Nat) : Option UnpackedProof :=
  if proof.length = proof_length dimension then
    match proof.drop dimension with
    | f0 :: g0 :: h0 :: remaining =>
      some { data := proof.take dimension, f0 := f0, g0 := g0, h0 := h0,
             points_h_packed := remaining }
    | _ => none
  else none

/-- Consecutive writes `l[start] = vals[0], l[start+1] = vals[1], …`,
embedding the `for (i, x) in data.iter().enumerate()` loops that fill
`points_f[i+1]` and `points_g[i+1]`. -/
def writeSeq (l : List Field) (start : Nat) : List Field → List Field
  | [] => l
  | v :: vs => writeSeq (l.set start v) (start + 1) vs

/-- Stride-2 writes `while i < bound { l[i] = vals[j]; j += 1; i += 2 }`,
embedding the `points_h` population loop.  The source indexes
`points_h_packed[j]` unconditionally; exhausting `vals` before `bound` is
reached would be an out-of-bounds panic there, so that case is never hit
for a share accepted by `unpack_proof`. -/
def writeOddFrom (l : List Field) (i bound : Nat) : List Field → List Field
  | [] => l
  | v :: vs => if i < bound then writeOddFrom (l.set i v) (i + 2) bound vs else l

/-- Free function `generate_verification_message(dimension, eval_at, share,
is_first_server, mem)`.  The external polynomial evaluation
`poly_interpret_eval(points, inverse_roots, eval_at, …)` (spec 4.4 / 6) is
abstracted as the parameter `poly_interpret_eval`; it reads the point
arrays immutably and touches only the coefficient/transform scratch inside
`poly_mem`.  Returns the verification message together with the updated
scratch memory (the Rust code mutates `mem` in place). -/
def generate_verification_message (dimension : Nat) (eval_at : Field)
    (share : List Field) (is_first_server : Bool) (mem : ValidationMemory)
    (poly_interpret_eval : List Field → List Field → Field → Field) :
    Option (VerificationMessage × ValidationMemory) :=
  match unpack_proof share dimension with
  | none => none
  | some unpacked =>
    let proofLength := 2 * (dimension + 1).nextPowerOfTwo
    let pf := writeSeq (mem.points_f.set 0 unpacked.f0) 1 unpacked.data
    let pg := writeSeq (mem.points_g.set 0 unpacked.g0) 1
      (unpacked.data.map (fun x => if is_first_server then x - 1 else x))
    let ph := writeOddFrom (mem.points_h.set 0 unpacked.h0) 1 proofLength
      unpacked.points_h_packed
    let f_r := poly_interpret_eval pf mem.poly_mem.roots_n_inverted eval_at
    let g_r := poly_interpret_eval pg mem.poly_mem.roots_n_inverted eval_at
    let h_r := poly_interpret_eval ph mem.poly_mem.roots_2n_inverted eval_at
    some ({ f_r := f_r, g_r := g_r, h_r := h_r },
      { mem with points_f := pf, points_g := pg, points_h := ph })

/-- Method `Server::generate_verification_message(eval_at, share)` with the
external decode step abstracted by its result `share_field`: decode, then
delegate to the free function, which may update only the scratch memory. -/
def Server.generate_verification_message (srv : Server) (eval_at : Field)
    (share_field : Except EncryptError (List Field))
    (poly_interpret_eval : List Field → List Field → Field → Field) :
    Option VerificationMessage × Server :=
  match share_field with
  | Except.error _ => (none, srv)
  | Except.ok sf =>
    match Prio.generate_verification_message srv.dimension eval_at sf
        srv.is_first_server srv.validation_mem poly_interpret_eval with
    | none => (none, srv)
    | some (vm, mem') => (some vm, { srv with validation_mem := mem' })

/-- One round of `aggregate` calls: fold `Server::aggregate` over a batch of
already-decoded shares, each with its pair of verification messages. -/
def runAggregate (srv : Server)
    (items : List (List Field × VerificationMessage × VerificationMessage)) : Server :=
  items.foldl (fun s it => (Server.aggregate s (Except.ok it.1) it.2.1 it.2.2).2) srv

/-! Concrete instances used to evaluate the embedding on explicit inputs. -/

/-- Placeholder external polynomial evaluator: the claims below never depend
on the value the external library returns, only on the point arrays fed to
it, so any function will do for concrete runs. -/
def pe0 : List Field → List Field → Field → Field := fun _ _ _ => 0

/-- Concrete private key (the key carries no data in this embedding). -/
def pk0 : PrivateKey := {}

/-- Concrete root tables: a one-element order-2n root set suffices for the
challenge-selector scenario. -/
def pm0 : PolyAuxMemory :=
  { roots_n_inverted := [], roots_2n_inverted := [], roots_2n := [fieldFromU32 7] }

/-- Concrete server of dimension 1 (first-server role). -/
def srv0 : Server := Server.new 1 true pk0 pm0

/-- Concrete random-draw stream: always draws 3, which is not a root in
`pm0`. -/
def draws0 : Nat → Nat := fun _ => 3

/-- Well-formed dimension-1 share: `data = [1]`, `f0 = g0 = h0 = 0`,
`h_packed = [9, 9]` (length `1 + 3 + 2 = proof_length 1`). -/
def share1 : List Field := [1, 0, 0, 0, 9, 9]

/-- Unpacking of `share1` at dimension 1. -/
def u1 : UnpackedProof :=
  { data := [1], f0 := 0, g0 := 0, h0 := 0, points_h_packed := [9, 9] }

/-- Dimension-1 scratch memory whose `points_h` buffer holds a stale value 5
at the even index 2, as a previous user of the shared buffer could have
left it. -/
def mem1 : ValidationMemory :=
  { points_f := [0, 0], points_g := [0, 0], points_h := [0, 0, 5, 0], poly_mem := pm0 }

/-- State of `mem1` after `generate_verification_message 1 _ share1 true`:
the data write puts 1 at `points_f[1]`, the first-server adjustment puts
`1 - 1 = 0` at `points_g[1]`, and the h loop writes the packed values at
the odd indices 1 and 3 — the stale 5 at even index 2 survives. -/
def mem1' : ValidationMemory :=
  { points_f := [0, 1], points_g := [0, 0], points_h := [0, 9, 5, 9], poly_mem := pm0 }

/-- Verification message produced with the placeholder evaluator `pe0`. -/
def vm0 : VerificationMessage := { f_r := 0, g_r := 0, h_r := 0 }

/-- Well-formed dimension-2 share: `data = [1, 2]`, `f0 = g0 = h0 = 0`,
`h_packed = [3, 4, 5, 6]` (length `2 + 3 + 4 = proof_length 2`). -/
def share2 : List Field := [1, 2, 0, 0, 0, 3, 4, 5, 6]

/-- Unpacking of `share2` at dimension 2. -/
def u2 : UnpackedProof :=
  { data := [1, 2], f0 := 0, g0 := 0, h0 := 0, points_h_packed := [3, 4, 5, 6] }

/-- Dimension-2 scratch memory (point arrays of length `n = 4` and `2n = 8`)
with a stale value 7 at `points_f[3]`, an index beyond the data block. -/
def mem2 : ValidationMemory :=
  { points_f := [0, 0, 0, 7], points_g := [0, 0, 0, 0],
    points_h := [0, 0, 0, 0, 0, 0, 0, 0], poly_mem := pm0 }

/-- State of `mem2` after `generate_verification_message 2 _ share2 true`:
data writes reach only indices 1 and 2 of `points_f`/`points_g`; the stale
7 at `points_f[3]` survives; the h loop fills the odd indices 1, 3, 5, 7. -/
def mem2' : ValidationMemory :=
  { points_f := [0, 1, 2, 7], points_g := [0, 0, 1, 0],
    points_h := [0, 3, 0, 4, 0, 5, 0, 6], poly_mem := pm0 }

/-- Verification-message pair that passes the validity oracle:
`(0 + 0) * (0 + 0) = 0 + 0`. -/
def vOK : VerificationMessage := { f_r := 0, g_r := 0, h_r := 0 }

/-- Verification-message pair that fails the validity oracle:
`(1 + 0) * (1 + 0) = 1 ≠ 0 = 0 + 0`. -/
def vBAD : VerificationMessage := { f_r := 1, g_r := 1, h_r := 0 }

/-- Concrete batch of two decoded dimension-1 shares, both with valid
verification-message pairs. -/
def items4 : List (List Field × VerificationMessage × VerificationMessage) :=
  [([2], vOK, vOK), ([3], vOK, vOK)]

/-- The same batch in the opposite processing order. -/
def items4' : List (List Field × VerificationMessage × VerificationMessage) :=
  [([3], vOK, vOK), ([2], vOK, vOK)]

/-! Auxiliary lemmas. -/

theorem le_nextPowerOfTwo_go (n power : Nat) (h : 0 < power) :
    n ≤ Nat.nextPowerOfTwo.go n power h := by
  unfold Nat.nextPowerOfTwo.go
  split
  · exact le_nextPowerOfTwo_go n (power * 2) (Nat.mul_pos h (by decide))
  · omega
termination_by n - power
decreasing_by simp_wf; apply Nat.nextPowerOfTwo_dec <;> assumption

theorem le_nextPowerOfTwo (n : Nat) : n ≤ n.nextPowerOfTwo :=
  le_nextPowerOfTwo_go n 1 (by decide)

theorem nextPowerOfTwo_two : Nat.nextPowerOfTwo 2 = 2 := by
  simp [Nat.nextPowerOfTwo, Nat.nextPowerOfTwo.go]

theorem nextPowerOfTwo_three : Nat.nextPowerOfTwo 3 = 4 := by
  simp [Nat.nextPowerOfTwo, Nat.nextPowerOfTwo.go]

theorem length_writeSeq (vals : List Field) (l : List Field) (s : Nat) :
    (writeSeq l s vals).length = l.length := by
  induction vals generalizing l s with
  | nil => rfl
  | cons v vs ih => simp [writeSeq, ih]

theorem writeSeq_getElem?_lt (vals : List Field) (l : List Field) (s j : Nat) (hj : j < s) :
    (writeSeq l s vals)[j]? = l[j]? := by
  induction vals generalizing l s with
  | nil => rfl
  | cons v vs ih =>
    rw [writeSeq, ih (l.set s v) (s + 1) (by omega), List.getElem?_set_ne (by omega)]

theorem writeSeq_getElem?_written (vals : List Field) (l : List Field) (s k : Nat)
    (hk : k < vals.length) (hb : s + k < l.length) :
    (writeSeq l s vals)[s + k]? = vals[k]? := by
  induction vals generalizing l s k with
  | nil => simp at hk
  | cons v vs ih =>
    rw [writeSeq]
    rcases k with _ | k'
    · simp only [Nat.add_zero] at hb ⊢
      rw [writeSeq_getElem?_lt vs (l.set s v) (s + 1) s (by omega),
        List.getElem?_set_self hb]
      simp
    · have h1 : s + (k' + 1) = (s + 1) + k' := by omega
      rw [h1, ih (l.set s v) (s + 1) k' (by simpa using hk) (by simp; omega)]
      simp

theorem length_writeOddFrom (vals : List Field) (l : List Field) (i b : Nat) :
    (writeOddFrom l i b vals).length = l.length := by
  induction vals generalizing l i with
  | nil => rfl
  | cons v vs ih =>
    rw [writeOddFrom]
    split
    · simp [ih]
    · rfl

theorem writeOddFrom_getElem?_lt (vals : List Field) (l : List Field) (i b j : Nat)
    (hj : j < i) : (writeOddFrom l i b vals)[j]? = l[j]? := by
  induction vals generalizing l i with
  | nil => rfl
  | cons v vs ih =>
    rw [writeOddFrom]
    split
    · rw [ih (l.set i v) (i + 2) (by omega), List.getElem?_set_ne (by omega)]
    · rfl

theorem writeOddFrom_getElem?_written (vals : List Field) (l : List Field) (i b k : Nat)
    (hk : k < vals.length) (hb : i + 2 * k < b) (hl : i + 2 * k < l.length) :
    (writeOddFrom l i b vals)[i + 2 * k]? = vals[k]? := by
  induction vals generalizing l i k with
  | nil => simp at hk
  | cons v vs ih =>
    rw [writeOddFrom, if_pos (by omega)]
    rcases k with _ | k'
    · simp only [Nat.mul_zero, Nat.add_zero] at hl ⊢
      rw [writeOddFrom_getElem?_lt vs (l.set i v) (i + 2) b i (by omega),
        List.getElem?_set_self hl]
      simp
    · have h1 : i + 2 * (k' + 1) = (i + 2) + 2 * k' := by omega
      rw [h1, ih (l.set i v) (i + 2) k' (by simpa using hk) (by omega) (by simp; omega)]
      simp

theorem addInto_nil (a : List Field) : addInto a [] = a := by
  cases a <;> rfl

theorem length_addInto (a s : List Field) : (addInto a s).length = a.length := by
  induction a generalizing s with
  | nil => simp [addInto]
  | cons x xs ih =>
    cases s with
    | nil => rfl
    | cons y ys => simp [addInto, ih]

theorem addInto_getD (a s : List Field) (i : Nat) (h : i < a.length) :
    (addInto a s).getD i 0 = a.getD i 0 + s.getD i 0 := by
  induction a generalizing s i with
  | nil => simp at h
  | cons x xs ih =>
    cases s with
    | nil => simp [addInto_nil]
    | cons y ys =>
      cases i with
      | zero => simp [addInto]
      | succ i' => simpa [addInto] using ih ys i' (by simpa using h)

theorem addInto_take (a s : List Field) : addInto a (s.take a.length) = addInto a s := by
  induction a generalizing s with
  | nil => simp [addInto]
  | cons x xs ih =>
    cases s with
    | nil => rfl
    | cons y ys => simp [addInto, ih]

theorem addInto_right_comm (a s t : List Field) :
    addInto (addInto a s) t = addInto (addInto a t) s := by
  induction a generalizing s t with
  | nil => simp [addInto]
  | cons x xs ih =>
    cases s with
    | nil =>
      cases t <;> simp [addInto, addInto_nil]
    | cons y ys =>
      cases t with
      | nil => simp [addInto, addInto_nil]
      | cons z zs => simp [addInto, ih, add_right_comm]

theorem foldl_items_addInto_getD
    (items : List (List Field × VerificationMessage × VerificationMessage))
    (acc : List Field) (i : Nat) (h : i < acc.length) :
    (items.foldl (fun a it => addInto a it.1) acc).getD i 0
      = acc.getD i 0 + (items.map (fun it => it.1.getD i 0)).sum := by
  induction items generalizing acc with
  | nil => simp
  | cons it its ih =>
    rw [List.foldl_cons, ih (addInto acc it.1) (by rw [length_addInto]; exact h),
      addInto_getD acc it.1 i h]
    simp [add_assoc]

theorem unpack_proof_lengths (proof : List Field) (d : Nat) (u : UnpackedProof)
    (hu : unpack_proof proof d = some u) :
    proof.length = proof_length d ∧ u.data = proof.take d ∧ u.data.length = d
    ∧ u.points_h_packed.length = (d + 1).nextPowerOfTwo := by
  unfold unpack_proof at hu
  split at hu
  case isTrue hlen =>
    have hd : (proof.drop d).length = 3 + (d + 1).nextPowerOfTwo := by
      rw [List.length_drop, hlen]
      unfold proof_length
      omega
    rcases he : proof.drop d with _ | ⟨f0, _ | ⟨g0, _ | ⟨h0, rem⟩⟩⟩ <;> rw [he] at hu hd
    · simp at hu
    · simp at hu
    · simp at hu
    · simp only [Option.some.injEq] at hu
      subst hu
      dsimp only
      refine ⟨hlen, rfl, ?_, ?_⟩
      · rw [List.length_take, hlen]
        unfold proof_length
        omega
      · simp only [List.length_cons] at hd
        omega
  case isFalse hlen => simp at hu

theorem unpack_proof_isSome (proof : List Field) (d : Nat) :
    (unpack_proof proof d).isSome = true ↔ proof.length = proof_length d := by
  constructor
  · intro h
    rcases hu : unpack_proof proof d with _ | u
    · rw [hu] at h
      simp at h
    · exact (unpack_proof_lengths proof d u hu).1
  · intro h
    unfold unpack_proof
    rw [if_pos h]
    have hd : (proof.drop d).length = 3 + (d + 1).nextPowerOfTwo := by
      rw [List.length_drop, h]
      unfold proof_length
      omega
    rcases he : proof.drop d with _ | ⟨f0, _ | ⟨g0, _ | ⟨h0, rem⟩⟩⟩ <;>
      rw [he] at hd <;> simp at hd ⊢ <;> omega

theorem runAggregate_cons (srv : Server)
    (it : List Field × VerificationMessage × VerificationMessage)
    (its : List (List Field × VerificationMessage × VerificationMessage)) :
    runAggregate srv (it :: its)
      = runAggregate (Server.aggregate srv (Except.ok it.1) it.2.1 it.2.2).2 its := rfl

theorem runAggregate_accumulator
    (items : List (List Field × VerificationMessage × VerificationMessage)) (srv : Server) :
    (runAggregate srv items).accumulator
      = items.foldl
          (fun a it => if is_valid_share it.2.1 it.2.2 then addInto a it.1 else a)
          srv.accumulator := by
  induction items generalizing srv with
  | nil => rfl
  | cons it its ih =>
    rw [runAggregate_cons, List.foldl_cons, ih]
    congr 1
    cases h : is_valid_share it.2.1 it.2.2 <;> simp [Server.aggregate, h]

theorem foldl_cond_addInto_of_valid
    (items : List (List Field × VerificationMessage × VerificationMessage))
    (hvalid : ∀ it ∈ items, is_valid_share it.2.1 it.2.2 = true) (a : List Field) :
    items.foldl (fun a it => if is_valid_share it.2.1 it.2.2 then addInto a it.1 else a) a
      = items.foldl (fun a it => addInto a it.1) a := by
  induction items generalizing a with
  | nil => rfl
  | cons it its ih =>
    rw [List.foldl_cons, List.foldl_cons, if_pos (hvalid it (List.mem_cons_self it its)),
      ih (fun x hx => hvalid x (List.mem_cons_of_mem it hx))]

theorem nextPowerOfTwo_one_add_one : (1 + 1).nextPowerOfTwo = 2 := by
  norm_num [nextPowerOfTwo_two]

theorem nextPowerOfTwo_two_add_one : (2 + 1).nextPowerOfTwo = 4 := by
  norm_num [nextPowerOfTwo_three]

theorem unpack1_eval : unpack_proof share1 1 = some u1 := by
  simp only [unpack_proof, proof_length, nextPowerOfTwo_one_add_one]
  decide

theorem gvm1_eval :
    Prio.generate_verification_message 1 0 share1 true mem1 pe0 = some (vm0, mem1') := by
  simp only [Prio.generate_verification_message, unpack_proof, proof_length,
    nextPowerOfTwo_one_add_one]
  decide

theorem unpack2_eval : unpack_proof share2 2 = some u2 := by
  simp only [unpack_proof, proof_length, nextPowerOfTwo_two_add_one]
  decide

theorem gvm2_eval :
    Prio.generate_verification_message 2 0 share2 true mem2 pe0 = some (vm0, mem2') := by
  simp only [Prio.generate_verification_message, unpack_proof, proof_length,
    nextPowerOfTwo_two_add_one]
  decide

/-! Claim theorems. -/

/-- Claim C1 (code bug): the code does not zero-fill the even nonzero
indices of `points_h` before the odd-index population step.  Concretely, at
dimension 1 with a scratch memory whose `points_h` buffer holds a stale 5
at even index 2, a successful `generate_verification_message` call leaves
that 5 in place, while the claim requires the slot to be 0 after the call. -/
theorem points_h_even_slot_not_zero_filled :
    (Prio.generate_verification_message 1 0 share1 true mem1 pe0).map
        (fun r => r.2.points_h.getD 2 0) = some 5
    ∧ (5 : Field) ≠ 0 := by
  rw [gvm1_eval]
  exact ⟨by decide, by decide⟩

/-- Claim C2: `Server::aggregate` mutates the accumulator only when the
validity check returns true — a decode error or a failing validity check
leaves the accumulator exactly at its pre-call value. -/
theorem aggregate_untouched_when_invalid (srv : Server)
    (share_field : Except EncryptError (List Field)) (v1 v2 : VerificationMessage)
    (h : (∃ e, share_field = Except.error e) ∨ is_valid_share v1 v2 = false) :
    (Server.aggregate srv share_field v1 v2).2.accumulator = srv.accumulator := by
  rcases share_field with e | sf
  · rfl
  · rcases h with ⟨e, he⟩ | hv
    · exact absurd he (by simp)
    · simp [Server.aggregate, hv]

/-- Witness for C2 at a concrete invalid verification-message pair. -/
theorem aggregate_untouched_when_invalid_witness :
    (Server.aggregate srv0 (Except.ok [2]) vBAD vOK).2.accumulator = srv0.accumulator :=
  aggregate_untouched_when_invalid srv0 (Except.ok [2]) vBAD vOK (Or.inr (by decide))

/-- Claim C3: `is_valid_share(v1, v2)` returns true exactly when
`(v1.f_r + v2.f_r) * (v1.g_r + v2.g_r) = v1.h_r + v2.h_r` in the field. -/
theorem is_valid_share_iff (v1 v2 : VerificationMessage) :
    is_valid_share v1 v2 = true
      ↔ (v1.f_r + v2.f_r) * (v1.g_r + v2.g_r) = v1.h_r + v2.h_r := by
  simp [is_valid_share]

/-- Claim C4: starting from a freshly created server, accumulating a batch
of decoded shares that all pass the validity check yields the element-wise
field sum of the shares at every accumulator index, and the final
accumulator is independent of the processing order. -/
theorem aggregate_additive_perm (d : Nat) (first : Bool) (pk : PrivateKey)
    (pm : PolyAuxMemory)
    (items items' : List (List Field × VerificationMessage × VerificationMessage))
    (hperm : items.Perm items')
    (hvalid : ∀ it ∈ items, is_valid_share it.2.1 it.2.2 = true) :
    (∀ i, i < d → (runAggregate (Server.new d first pk pm) items).accumulator.getD i 0
        = (items.map (fun it => it.1.getD i 0)).sum)
    ∧ (runAggregate (Server.new d first pk pm) items).accumulator
        = (runAggregate (Server.new d first pk pm) items').accumulator := by
  have hacc : (Server.new d first pk pm).accumulator = List.replicate d (0 : Field) := rfl
  constructor
  · intro i hi
    rw [runAggregate_accumulator, foldl_cond_addInto_of_valid items hvalid, hacc,
      foldl_items_addInto_getD items (List.replicate d 0) i (by simpa using hi)]
    simp
  · rw [runAggregate_accumulator, runAggregate_accumulator]
    exact hperm.foldl_eq'
      (fun x _ y _ z => by
        cases hvx : is_valid_share x.2.1 x.2.2 <;>
          cases hvy : is_valid_share y.2.1 y.2.2 <;>
            simp [hvx, hvy, addInto_right_comm])
      _

/-- Witness for C4: two valid dimension-1 shares, in both orders. -/
theorem aggregate_additive_perm_witness :
    (runAggregate (Server.new 1 true pk0 pm0) items4).accumulator.getD 0 0
        = (items4.map (fun it => it.1.getD 0 0)).sum
    ∧ (runAggregate (Server.new 1 true pk0 pm0) items4).accumulator
        = (runAggregate (Server.new 1 true pk0 pm0) items4').accumulator :=
  ⟨(aggregate_additive_perm 1 true pk0 pm0 items4 items4' (by decide) (by decide)).1 0
      (by decide),
    (aggregate_additive_perm 1 true pk0 pm0 items4 items4' (by decide) (by decide)).2⟩

/-- Claim C5 (counterexample): the claim ranges `i` over `1..n` with
`n = (dimension+1).next_power_of_two()`, but the data block has only
`dimension` entries, so for `dimension = 2` (where `n = 4`) index `i = 3`
is never written: with a stale 7 at `points_f[3]`, after a successful call
`points_f[3]` is 7, not the (default-padded) data value `data[2] = 0`. -/
theorem points_fg_full_range_false :
    ¬ (∀ i, 1 ≤ i → i < (2 + 1).nextPowerOfTwo →
        (Prio.generate_verification_message 2 0 share2 true mem2 pe0).map
            (fun r => r.2.points_f.getD i 0)
          = (unpack_proof share2 2).map (fun u => u.data.getD (i - 1) 0)) := by
  intro hall
  have h3 := hall 3 (by omega) (by rw [nextPowerOfTwo_two_add_one]; omega)
  rw [gvm2_eval, unpack2_eval] at h3
  simp only [Option.map_some'] at h3
  exact absurd h3 (by decide)

/-- Claim C5 (amended): for every index `i` of the data block, that is
`1 ≤ i ≤ dimension`, a successful call sets `points_f[i] = data[i-1]` and
`points_g[i] = data[i-1] - 1` for the first server (`data[i-1]` unchanged
otherwise), with `points_f[0] = f0`, `points_g[0] = g0`, `points_h[0] = h0`. -/
theorem points_fg_populated (dimension : Nat) (eval_at : Field) (share : List Field)
    (first : Bool) (mem : ValidationMemory)
    (pe : List Field → List Field → Field → Field)
    (vm : VerificationMessage) (mem' : ValidationMemory) (u : UnpackedProof)
    (hf : mem.points_f.length = (dimension + 1).nextPowerOfTwo)
    (hg : mem.points_g.length = (dimension + 1).nextPowerOfTwo)
    (hh : mem.points_h.length = 2 * (dimension + 1).nextPowerOfTwo)
    (hu : unpack_proof share dimension = some u)
    (hres : Prio.generate_verification_message dimension eval_at share first mem pe
      = some (vm, mem')) :
    mem'.points_f.getD 0 0 = u.f0 ∧ mem'.points_g.getD 0 0 = u.g0
    ∧ mem'.points_h.getD 0 0 = u.h0
    ∧ ∀ i, 1 ≤ i → i ≤ dimension →
        mem'.points_f.getD i 0 = u.data.getD (i - 1) 0
        ∧ mem'.points_g.getD i 0
            = (if first = true then u.data.getD (i - 1) 0 - 1 else u.data.getD (i - 1) 0) := by
  obtain ⟨hlen, hdata, hdlen, hplen⟩ := unpack_proof_lengths share dimension u hu
  have hd1 : dimension + 1 ≤ (dimension + 1).nextPowerOfTwo := le_nextPowerOfTwo (dimension + 1)
  unfold Prio.generate_verification_message at hres
  rw [hu] at hres
  simp only [Option.some.injEq, Prod.mk.injEq] at hres
  obtain ⟨-, hmem⟩ := hres
  subst hmem
  refine ⟨?_, ?_, ?_, ?_⟩
  · show (writeSeq (mem.points_f.set 0 u.f0) 1 u.data).getD 0 0 = u.f0
    rw [List.getD_eq_getElem?_getD,
      writeSeq_getElem?_lt u.data (mem.points_f.set 0 u.f0) 1 0 (by omega),
      List.getElem?_set_self (by omega)]
    rfl
  · show (writeSeq (mem.points_g.set 0 u.g0) 1
        (u.data.map fun x => if first = true then x - 1 else x)).getD 0 0 = u.g0
    rw [List.getD_eq_getElem?_getD,
      writeSeq_getElem?_lt _ (mem.points_g.set 0 u.g0) 1 0 (by omega),
      List.getElem?_set_self (by omega)]
    rfl
  · show (writeOddFrom (mem.points_h.set 0 u.h0) 1 (2 * (dimension + 1).nextPowerOfTwo)
        u.points_h_packed).getD 0 0 = u.h0
    rw [List.getD_eq_getElem?_getD,
      writeOddFrom_getElem?_lt _ (mem.points_h.set 0 u.h0) 1 _ 0 (by omega),
      List.getElem?_set_self (by omega)]
    rfl
  · intro i h1i hid
    have hi' : 1 + (i - 1) = i := by omega
    have hdx : i - 1 < u.data.length := by omega
    constructor
    · show (writeSeq (mem.points_f.set 0 u.f0) 1 u.data).getD i 0 = u.data.getD (i - 1) 0
      have hw := writeSeq_getElem?_written u.data (mem.points_f.set 0 u.f0) 1 (i - 1) hdx
        (by rw [List.length_set]; omega)
      rw [hi'] at hw
      rw [List.getD_eq_getElem?_getD, hw, List.getD_eq_getElem?_getD]
    · show (writeSeq (mem.points_g.set 0 u.g0) 1
          (u.data.map fun x => if first = true then x - 1 else x)).getD i 0
        = (if first = true then u.data.getD (i - 1) 0 - 1 else u.data.getD (i - 1) 0)
      have hw := writeSeq_getElem?_written
        (u.data.map fun x => if first = true then x - 1 else x)
        (mem.points_g.set 0 u.g0) 1 (i - 1) (by rw [List.length_map]; omega)
        (by rw [List.length_set]; omega)
      rw [hi'] at hw
      rw [List.getD_eq_getElem?_getD, hw, List.getElem?_map,
        List.getElem?_eq_getElem hdx, List.getD_eq_getElem?_getD u.data,
        List.getElem?_eq_getElem hdx]
      by_cases hb : first = true <;> simp [hb]

/-- Witness for the amended C5 at dimension 1 (first-server role). -/
theorem points_fg_populated_witness :
    mem1'.points_f.getD 1 0 = u1.data.getD 0 0
    ∧ mem1'.points_g.getD 1 0
        = (if true = true then u1.data.getD 0 0 - 1 else u1.data.getD 0 0) :=
  (points_fg_populated 1 0 share1 true mem1 pe0 vm0 mem1' u1
      (by rw [nextPowerOfTwo_one_add_one]; decide)
      (by rw [nextPowerOfTwo_one_add_one]; decide)
      (by rw [nextPowerOfTwo_one_add_one]; decide)
      unpack1_eval gvm1_eval).2.2.2 1 (by omega) (by omega)

/-- Claim C6 (counterexample): the packed h block does not have `n − 1`
elements — at dimension 1 (`n = 2`) unpacking a well-formed share yields a
`points_h_packed` of length 2, not `n − 1 = 1` (the `points_h` loop in
`server.rs` consumes one packed entry per odd index `1, 3, …, 2n−1`, which
is `n` entries). -/
theorem points_h_packed_count_false :
    (unpack_proof share1 1).map (fun u => u.points_h_packed.length) = some 2
    ∧ ¬ (2 = (1 + 1).nextPowerOfTwo - 1) := by
  constructor
  · rw [unpack1_eval]
    rfl
  · rw [nextPowerOfTwo_one_add_one]
    omega

/-- Claim C6 (amended): the `n` elements of `h_packed` are written to
`points_h` at the odd indices `1, 3, …, 2n−1` in order: after a successful
call, `points_h[2k+1] = h_packed[k]` for every `k < n`. -/
theorem points_h_odd_populated (dimension : Nat) (eval_at : Field) (share : List Field)
    (first : Bool) (mem : ValidationMemory)
    (pe : List Field → List Field → Field → Field)
    (vm : VerificationMessage) (mem' : ValidationMemory) (u : UnpackedProof)
    (hh : mem.points_h.length = 2 * (dimension + 1).nextPowerOfTwo)
    (hu : unpack_proof share dimension = some u)
    (hres : Prio.generate_verification_message dimension eval_at share first mem pe
      = some (vm, mem')) :
    u.points_h_packed.length = (dimension + 1).nextPowerOfTwo
    ∧ ∀ k, k < (dimension + 1).nextPowerOfTwo →
        mem'.points_h.getD (2 * k + 1) 0 = u.points_h_packed.getD k 0 := by
  obtain ⟨hlen, hdata, hdlen, hplen⟩ := unpack_proof_lengths share dimension u hu
  unfold Prio.generate_verification_message at hres
  rw [hu] at hres
  simp only [Option.some.injEq, Prod.mk.injEq] at hres
  obtain ⟨-, hmem⟩ := hres
  subst hmem
  refine ⟨hplen, ?_⟩
  intro k hk
  show (writeOddFrom (mem.points_h.set 0 u.h0) 1 (2 * (dimension + 1).nextPowerOfTwo)
      u.points_h_packed).getD (2 * k + 1) 0 = u.points_h_packed.getD k 0
  have h1 : 1 + 2 * k = 2 * k + 1 := by omega
  have hw := writeOddFrom_getElem?_written u.points_h_packed (mem.points_h.set 0 u.h0) 1
    (2 * (dimension + 1).nextPowerOfTwo) k (by omega) (by omega)
    (by rw [List.length_set]; omega)
  rw [h1] at hw
  rw [List.getD_eq_getElem?_getD, hw, List.getD_eq_getElem?_getD]

/-- Witness for the amended C6 at dimension 1. -/
theorem points_h_odd_populated_witness :
    u1.points_h_packed.length = (1 + 1).nextPowerOfTwo
    ∧ mem1'.points_h.getD (2 * 0 + 1) 0 = u1.points_h_packed.getD 0 0 :=
  ⟨(points_h_odd_populated 1 0 share1 true mem1 pe0 vm0 mem1' u1
      (by rw [nextPowerOfTwo_one_add_one]; decide) unpack1_eval gvm1_eval).1,
    (points_h_odd_populated 1 0 share1 true mem1 pe0 vm0 mem1' u1
      (by rw [nextPowerOfTwo_one_add_one]; decide) unpack1_eval gvm1_eval).2 0
      (by rw [nextPowerOfTwo_one_add_one]; omega)⟩

/-- Claim C7: `generate_verification_message` produces a result exactly when
the share's length equals `proof_length(dimension)`; a malformed share
yields no result (and, in this total embedding, never a crash). -/
theorem generate_verification_message_some_iff (dimension : Nat) (eval_at : Field)
    (share : List Field) (first : Bool) (mem : ValidationMemory)
    (pe : List Field → List Field → Field → Field) :
    (Prio.generate_verification_message dimension eval_at share first mem pe).isSome = true
      ↔ share.length = proof_length dimension := by
  rw [← unpack_proof_isSome share dimension]
  unfold Prio.generate_verification_message
  rcases hu : unpack_proof share dimension with _ | u <;> simp [hu]

/-- Claim C8: whenever `Server::choose_eval_at` returns, the returned field
element is outside the precomputed order-2n root set, for every server
state and every state of the random source. -/
theorem choose_eval_at_not_root (srv : Server) (draws : Nat → Nat)
    (h : ∃ k, srv.validation_mem.poly_mem.roots_2n.contains (fieldFromU32 (draws k)) = false) :
    srv.validation_mem.poly_mem.roots_2n.contains (Server.choose_eval_at srv draws h)
      = false := by
  unfold Server.choose_eval_at
  exact Nat.find_spec h

/-- The concrete stream `draws0` eventually escapes the root set of `srv0`. -/
theorem cea_exists_draw :
    ∃ k, srv0.validation_mem.poly_mem.roots_2n.contains (fieldFromU32 (draws0 k)) = false :=
  ⟨0, by decide⟩

/-- Witness for C8 at a concrete server and draw stream. -/
theorem choose_eval_at_not_root_witness :
    srv0.validation_mem.poly_mem.roots_2n.contains
      (Server.choose_eval_at srv0 draws0 cea_exists_draw) = false :=
  choose_eval_at_not_root srv0 draws0 cea_exists_draw

/-- Claim C9: the accumulator has length `dimension` at creation and keeps
it (and the `dimension` field) across `aggregate`; entries of the decoded
share beyond index `dimension − 1` never affect `total_shares`. -/
theorem aggregate_respects_dimension (d : Nat) (first : Bool) (pk : PrivateKey)
    (pm : PolyAuxMemory) (srv : Server) (share_field : Except EncryptError (List Field))
    (sf : List Field) (v1 v2 : VerificationMessage) :
    (Server.new d first pk pm).accumulator.length = d
    ∧ (Server.aggregate srv share_field v1 v2).2.accumulator.length
        = srv.accumulator.length
    ∧ (Server.aggregate srv share_field v1 v2).2.dimension = srv.dimension
    ∧ (srv.accumulator.length = srv.dimension →
        Server.total_shares (Server.aggregate srv (Except.ok sf) v1 v2).2
          = Server.total_shares
              (Server.aggregate srv (Except.ok (sf.take srv.dimension)) v1 v2).2) := by
  refine ⟨by simp [Server.new, vector_with_length], ?_, ?_, ?_⟩
  · rcases share_field with e | sf'
    · rfl
    · cases h : is_valid_share v1 v2 <;> simp [Server.aggregate, h, length_addInto]
  · rcases share_field with e | sf'
    · rfl
    · cases h : is_valid_share v1 v2 <;> simp [Server.aggregate, h]
  · intro hlen
    cases h : is_valid_share v1 v2 <;> simp [Server.aggregate, h, Server.total_shares]
    rw [← hlen]
    exact (addInto_take srv.accumulator sf).symm

/-- Witness for C9: a three-element decoded share against a dimension-1
server. -/
theorem aggregate_respects_dimension_witness :
    Server.total_shares (Server.aggregate srv0 (Except.ok [4, 5, 6]) vOK vOK).2
      = Server.total_shares
          (Server.aggregate srv0 (Except.ok ([4, 5, 6].take srv0.dimension)) vOK vOK).2 :=
  (aggregate_respects_dimension 1 true pk0 pm0 srv0 (Except.ok [4, 5, 6]) [4, 5, 6]
      vOK vOK).2.2.2 (by decide)

/-- Claim C10: `Server::generate_verification_message` never modifies the
accumulator, the dimension, the role flag or the key — on every input
(decode failure, malformed share, or success) only the `ValidationMemory`
scratch state may change. -/
theorem generate_verification_message_frame (srv : Server) (eval_at : Field)
    (share_field : Except EncryptError (List Field))
    (pe : List Field → List Field → Field → Field) :
    (Server.generate_verification_message srv eval_at share_field pe).2.accumulator
        = srv.accumulator
    ∧ (Server.generate_verification_message srv eval_at share_field pe).2.dimension
        = srv.dimension
    ∧ (Server.generate_verification_message srv eval_at share_field pe).2.is_first_server
        = srv.is_first_server
    ∧ (Server.generate_verification_message srv eval_at share_field pe).2.private_key
        = srv.private_key := by
  rcases share_field with e | sf
  · exact ⟨rfl, rfl, rfl, rfl⟩
  · unfold Server.generate_verification_message
    rcases h : Prio.generate_verification_message srv.dimension eval_at sf
        srv.is_first_server srv.validation_mem pe with _ | ⟨vm, mm⟩ <;> simp [h]

end Prio
